import Mathlib

/-!  Formal model of the interval-selection core of the EEG preprocessing
repository (file `edf_extraction.py`).  Time values in seconds are modeled as
rationals; Python `int()` truncation is `pyInt`.  The pandas `cumulative_end`
fix-up scan, the clean-span table (`next_start`, `clean_periods`) and the
segment-selection loops of `Extractor.extract_good` are translated
clause by clause, keeping the exact order of operations (append, then
increment, then break test) of the source loops.  -/

namespace EDF

/-- Python `int()` truncation toward zero on a rational time value. -/
def pyInt (q : ℚ) : ℤ := if q < 0 then ⌈q⌉ else ⌊q⌋

/-- The order used by Python `list.sort()` on `[start, end]` pairs:
lexicographic on (start, end). -/
def lexLe (a b : ℚ × ℚ) : Prop := a.1 < b.1 ∨ (a.1 = b.1 ∧ a.2 ≤ b.2)

instance : DecidableRel lexLe := fun a b =>
  show Decidable (a.1 < b.1 ∨ (a.1 = b.1 ∧ a.2 ≤ b.2)) from inferInstance

/-- `self.bad_intervals.sort()` -/
def sortBad (l : List (ℚ × ℚ)) : List (ℚ × ℚ) := List.insertionSort lexLe l

/-- The rows of `tmp_df`: the leading exclusion `[0, 420]` is inserted at
position 0 of the sorted bad-interval list and the sentinel `[tmax, tmax]`
is appended at the end. -/
def rows (bad : List (ℚ × ℚ)) (tmax : ℚ) : List (ℚ × ℚ) :=
  (0, 420) :: (sortBad bad ++ [(tmax, tmax)])

/-- The `cumulative_end` scan over the `end` column:
`if prev_value > value: emit prev_value (keep prev) else: emit value; prev = value`,
with `prev_value` initialized to `0`. -/
def cumEnds (prev : ℚ) : List ℚ → List ℚ
  | [] => []
  | e :: rest => if prev > e then prev :: cumEnds prev rest else e :: cumEnds e rest

/-- The `next_start` column: `start` shifted up by one row; the last row
(the sentinel) gets `tmax`. -/
def nextStarts (tmax : ℚ) : List (ℚ × ℚ) → List ℚ
  | [] => []
  | [_] => [tmax]
  | _ :: b :: rest => b.1 :: nextStarts tmax (b :: rest)

/-- The produced clean spans, as pairs `(cumulative_end, next_start)`. -/
def spanList (bad : List (ℚ × ℚ)) (tmax : ℚ) : List (ℚ × ℚ) :=
  List.zip (cumEnds 0 ((rows bad tmax).map Prod.snd)) (nextStarts tmax (rows bad tmax))

/-- `clean_periods = next_start - cumulative_end`. -/
def period (p : ℚ × ℚ) : ℚ := p.2 - p.1

/-- The rows with `clean_periods > 0` (the spans the selector draws from). -/
def posSpans (bad : List (ℚ × ℚ)) (tmax : ℚ) : List (ℚ × ℚ) :=
  (spanList bad tmax).filter fun p => decide (0 < period p)

/-- `clean_periods // target_length` (float floor division). -/
def capacity (tl : ℚ) (p : ℚ × ℚ) : ℤ := ⌊period p / tl⌋

/-- `total_available_segments`: sum of capacities over rows with positive
`clean_periods`. -/
def totalAvailable (bad : List (ℚ × ℚ)) (tmax tl : ℚ) : ℤ :=
  ((posSpans bad tmax).map (capacity tl)).sum

/-- The inner loop `for s in range(int(n_available_segments[i]))`: append
`(int(current_start), int(current_start + target_length))`, advance
`current_start`, and break once the accumulated list reaches `n_samples`. -/
def innerLoop (tl : ℚ) (n : ℤ) : ℕ → ℚ → List (ℤ × ℤ) → List (ℤ × ℤ)
  | 0, _, acc => acc
  | k + 1, cur, acc =>
    if n ≤ ((acc ++ [(pyInt cur, pyInt (cur + tl))]).length : ℤ) then
      acc ++ [(pyInt cur, pyInt (cur + tl))]
    else innerLoop tl n k (cur + tl) (acc ++ [(pyInt cur, pyInt (cur + tl))])

/-- The outer loop `for i in range(len(n_available_segments))` over the
positive spans, with its own break once `n_samples` is reached. -/
def outerLoop (tl : ℚ) (n : ℤ) : List (ℚ × ℚ) → List (ℤ × ℤ) → List (ℤ × ℤ)
  | [], acc => acc
  | p :: rest, acc =>
    if n ≤ ((innerLoop tl n (capacity tl p).toNat ((pyInt p.1 : ℤ) : ℚ) acc).length : ℤ) then
      innerLoop tl n (capacity tl p).toNat ((pyInt p.1 : ℤ) : ℚ) acc
    else outerLoop tl n rest (innerLoop tl n (capacity tl p).toNat ((pyInt p.1 : ℤ) : ℚ) acc)

/-- `n_samples = min(target_segments, total_available_segments)`, written as in
the source: `if target_segments < total_available_segments: ... else: ...`. -/
def nSamples (bad : List (ℚ × ℚ)) (tmax tl : ℚ) (ts : ℤ) : ℤ :=
  if ts < totalAvailable bad tmax tl then ts else totalAvailable bad tmax tl

/-- `Extractor.extract_good`, abstracted over the detector outputs `bad`, the
recording duration `tmax`, and the object's `clean_intervals` list before the
call (`prior`: a fresh `Extractor` has `prior = []`).  Returns the pair
`(resolution, clean_intervals)` after the call. -/
def extractGood (bad : List (ℚ × ℚ)) (tmax tl : ℚ) (ts : ℤ)
    (prior : List (ℤ × ℤ)) : Bool × List (ℤ × ℤ) :=
  if ((spanList bad tmax).filter fun p => decide (tl ≤ period p)).length = 0 then
    (false, prior)
  else
    (true, outerLoop tl (nSamples bad tmax tl ts) (posSpans bad tmax) prior)

/-- `Extractor.save_edf`: returns the list of segments actually written out
(one cropped file per entry of `clean_intervals` when `resolution` is set,
nothing otherwise). -/
def saveEdf (resolution : Bool) (cleanIntervals : List (ℤ × ℤ)) : List (ℤ × ℤ) :=
  if resolution then cleanIntervals else []

/-- Python `!=` on possibly-NaN floats (`none` models `np.nan`): it is `true`
unless both sides are non-NaN and equal — in particular `x != np.nan` is
`true` for every `x`, including NaN itself. -/
def pyNe (a b : Option ℚ) : Bool :=
  match a, b with
  | some x, some y => decide (x ≠ y)
  | _, _ => true

/-- First scan of `Extractor.hyperventilation`: one pass over the annotations
setting `start` on "HV 1Min"/"HV 1 Min" and `end` on "Post HV {30,60,90} Sec"
(`end = onset + (90 - int(item.split(' ')[2]))`); the last match wins. -/
def hvFirstScan (anns : List (String × ℚ)) : Option ℚ × Option ℚ :=
  anns.foldl
    (fun acc ann =>
      let st := if ann.1 = "HV 1Min" ∨ ann.1 = "HV 1 Min" then some (ann.2 - 90) else acc.1
      let en :=
        if ann.1 = "Post HV 30 Sec" then some (ann.2 + 60)
        else if ann.1 = "Post HV 60 Sec" then some (ann.2 + 30)
        else if ann.1 = "Post HV 90 Sec" then some (ann.2 + 0)
        else acc.2
      (st, en))
    (none, none)

/-- Fallback scan run when `start` is still NaN: "HV Begin"/"Begin HV". -/
def hvBeginScan (anns : List (String × ℚ)) : Option ℚ :=
  anns.foldl
    (fun acc ann => if ann.1 = "HV Begin" ∨ ann.1 = "Begin HV" then some (ann.2 - 30) else acc)
    none

/-- Fallback scan run when `end` is still NaN: "HV End"/"End HV". -/
def hvEndScan (anns : List (String × ℚ)) : Option ℚ :=
  anns.foldl
    (fun acc ann => if ann.1 = "HV End" ∨ ann.1 = "End HV" then some (ann.2 + 90) else acc)
    none

/-- `Extractor.hyperventilation`: the two NaN-guarded scans followed by the
guard `if start != np.nan and end != np.nan: return [[start, end]] else: return []`. -/
def hyperventilation (anns : List (String × ℚ)) : List (Option ℚ × Option ℚ) :=
  let fs := hvFirstScan anns
  let st := if fs.1.isNone then hvBeginScan anns else fs.1
  let en := if fs.2.isNone then hvEndScan anns else fs.2
  if pyNe st none && pyNe en none then [(st, en)] else []

/-- The block of segments the inner loop emits from an integer start `c`:
`(c, c+m), (c+m, c+2m), ...` (`j` of them). -/
def segsFrom (c m : ℤ) : ℕ → List (ℤ × ℤ)
  | 0 => []
  | j + 1 => (c, c + m) :: segsFrom (c + m) m j

/-- A segment `b` that the selection can emit from span `p` with target
length `m`: it starts at or after `⌊cumulative_end⌋`, ends at or before
`next_start`, and has length exactly `m`. -/
def SegOf (m : ℤ) (p : ℚ × ℚ) (b : ℤ × ℤ) : Prop :=
  ⌊p.1⌋ ≤ b.1 ∧ (b.2 : ℚ) ≤ p.2 ∧ b.2 = b.1 + m

/-! ### Basic facts about the `cumulative_end` scan -/

lemma cumEnds_cons (prev e : ℚ) (l : List ℚ) :
    cumEnds prev (e :: l) = max prev e :: cumEnds (max prev e) l := by
  simp only [cumEnds]
  split_ifs with h
  · rw [max_eq_left h.le]
  · rw [max_eq_right (not_lt.mp h)]

lemma cumEnds_length (prev : ℚ) (l : List ℚ) : (cumEnds prev l).length = l.length := by
  induction l generalizing prev with
  | nil => rfl
  | cons e rest ih => rw [cumEnds_cons]; simp [ih]

lemma le_of_mem_cumEnds {q prev : ℚ} {l : List ℚ} (hq : q ≤ prev) :
    ∀ x ∈ cumEnds prev l, q ≤ x := by
  induction l generalizing prev with
  | nil => intro x hx; exact absurd hx (List.not_mem_nil x)
  | cons e rest ih =>
    rw [cumEnds_cons]
    intro x hx
    rcases List.mem_cons.mp hx with rfl | hx
    · exact hq.trans (le_max_left _ _)
    · exact ih (hq.trans (le_max_left _ _)) x hx

lemma head_le_of_mem_cumEnds {prev e : ℚ} {l : List ℚ} :
    ∀ x ∈ cumEnds prev (e :: l), e ≤ x := by
  rw [cumEnds_cons]
  intro x hx
  rcases List.mem_cons.mp hx with rfl | hx
  · exact le_max_right _ _
  · exact le_of_mem_cumEnds (le_max_right _ _) x hx

lemma cumEnds_sorted (prev : ℚ) (l : List ℚ) :
    List.Sorted (· ≤ ·) (cumEnds prev l) := by
  induction l generalizing prev with
  | nil => exact List.sorted_nil
  | cons e rest ih =>
    rw [cumEnds_cons]
    exact List.sorted_cons.mpr ⟨le_of_mem_cumEnds le_rfl, ih _⟩

lemma cumEnds_int {prev : ℚ} {l : List ℚ} (hp : ∃ z : ℤ, prev = (z : ℚ))
    (hl : ∀ e ∈ l, ∃ z : ℤ, e = (z : ℚ)) :
    ∀ x ∈ cumEnds prev l, ∃ z : ℤ, x = (z : ℚ) := by
  induction l generalizing prev with
  | nil => intro x hx; exact absurd hx (List.not_mem_nil x)
  | cons e rest ih =>
    rw [cumEnds_cons]
    obtain ⟨zp, hzp⟩ := hp
    obtain ⟨ze, hze⟩ := hl e (by simp)
    have hmax : max prev e = ((max zp ze : ℤ) : ℚ) := by rw [hzp, hze]; push_cast; rfl
    intro x hx
    rcases List.mem_cons.mp hx with rfl | hx
    · exact ⟨max zp ze, hmax⟩
    · exact ih ⟨max zp ze, hmax⟩ (fun y hy => hl y (List.mem_cons_of_mem _ hy)) x hx

/-! ### Well-formedness of the constructed rows -/

lemma rows_wf {bad : List (ℚ × ℚ)} (hw : ∀ r ∈ bad, r.1 ≤ r.2) (tmax : ℚ) :
    ∀ r ∈ rows bad tmax, r.1 ≤ r.2 := by
  intro r hr
  rcases List.mem_cons.mp hr with rfl | hr
  · norm_num
  · rcases List.mem_append.mp hr with hr | hr
    · exact hw r ((List.perm_insertionSort lexLe bad).mem_iff.mp hr)
    · rw [List.mem_singleton.mp hr]

lemma spanList_ce_nonneg (bad : List (ℚ × ℚ)) (tmax : ℚ) :
    ∀ p ∈ spanList bad tmax, 0 ≤ p.1 := by
  intro p hp
  exact le_of_mem_cumEnds le_rfl p.1 (List.of_mem_zip hp).1

/-- C3: the `cumulative_end` sequence produced by the normalization scan is
non-decreasing for every input bad-interval list (in any order, with any
overlaps) and every total duration. -/
theorem cumulative_end_nondecreasing (bad : List (ℚ × ℚ)) (tmax : ℚ) :
    List.Sorted (· ≤ ·) (cumEnds 0 ((rows bad tmax).map Prod.snd)) :=
  cumEnds_sorted 0 _

/-! ### The hyperventilation detector -/

lemma pyNe_nan (a : Option ℚ) : pyNe a none = true := by
  cases a <;> rfl

/-- C10: `hyperventilation` unconditionally returns a one-element interval
list: the guard `start != np.nan and end != np.nan` is true for every float
value including NaN, so the empty-list branch is unreachable, and with no
hyperventilation annotations at all the returned interval has NaN endpoints. -/
theorem hyperventilation_always_singleton :
    (∀ anns, (hyperventilation anns).length = 1) ∧
    hyperventilation [] = [(none, none)] := by
  constructor
  · intro anns
    unfold hyperventilation
    simp [pyNe_nan]
  · rfl

/-! ### Order-independence of the normalization (sorting) -/

instance : IsTrans (ℚ × ℚ) lexLe :=
  ⟨by
    rintro a b c (h1 | ⟨h1, h1'⟩) (h2 | ⟨h2, h2'⟩)
    · exact Or.inl (h1.trans h2)
    · exact Or.inl (lt_of_lt_of_le h1 h2.le)
    · exact Or.inl (lt_of_le_of_lt h1.le h2)
    · exact Or.inr ⟨h1.trans h2, h1'.trans h2'⟩⟩

instance : IsTotal (ℚ × ℚ) lexLe :=
  ⟨by
    intro a b
    rcases lt_trichotomy a.1 b.1 with h | h | h
    · exact Or.inl (Or.inl h)
    · rcases le_total a.2 b.2 with h2 | h2
      · exact Or.inl (Or.inr ⟨h, h2⟩)
      · exact Or.inr (Or.inr ⟨h.symm, h2⟩)
    · exact Or.inr (Or.inl h)⟩

instance : IsAntisymm (ℚ × ℚ) lexLe :=
  ⟨by
    rintro a b (h1 | ⟨h1, h1'⟩) (h2 | ⟨h2, h2'⟩)
    · exact absurd h2 (lt_asymm h1)
    · exact absurd h1 (not_lt.mpr h2.le)
    · exact absurd h2 (not_lt.mpr h1.le)
    · exact Prod.ext h1 (le_antisymm h1' h2')⟩

lemma sortBad_eq_of_perm {l1 l2 : List (ℚ × ℚ)} (h : l1.Perm l2) :
    sortBad l1 = sortBad l2 :=
  List.eq_of_perm_of_sorted
    (((List.perm_insertionSort lexLe l1).trans h).trans
      (List.perm_insertionSort lexLe l2).symm)
    (List.sorted_insertionSort lexLe l1) (List.sorted_insertionSort lexLe l2)

/-- C7: normalization is order-independent: permuting the input bad-interval
list yields the same `cumulative_end` sequence, the same clean spans, and the
same result of `extract_good` (hence the same selected segments). -/
theorem normalization_perm_invariant (bad1 bad2 : List (ℚ × ℚ)) (tmax tl : ℚ)
    (ts : ℤ) (prior : List (ℤ × ℤ)) (h : bad1.Perm bad2) :
    cumEnds 0 ((rows bad1 tmax).map Prod.snd) = cumEnds 0 ((rows bad2 tmax).map Prod.snd) ∧
    spanList bad1 tmax = spanList bad2 tmax ∧
    extractGood bad1 tmax tl ts prior = extractGood bad2 tmax tl ts prior := by
  have hr : rows bad1 tmax = rows bad2 tmax := by
    unfold rows
    rw [sortBad_eq_of_perm h]
  refine ⟨by rw [hr], by unfold spanList; rw [hr], ?_⟩
  unfold extractGood nSamples totalAvailable posSpans spanList
  rw [hr]

/-- Witness for C7 at a concrete permutation pair. -/
theorem normalization_perm_invariant_witness :
    ([((1 : ℚ), (2 : ℚ)), ((3 : ℚ), (4 : ℚ))].Perm [((3 : ℚ), (4 : ℚ)), ((1 : ℚ), (2 : ℚ))]) ∧
    extractGood [((1 : ℚ), (2 : ℚ)), ((3 : ℚ), (4 : ℚ))] 3600 60 5 [] =
      extractGood [((3 : ℚ), (4 : ℚ)), ((1 : ℚ), (2 : ℚ))] 3600 60 5 [] :=
  ⟨List.Perm.swap _ _ _,
    (normalization_perm_invariant _ _ 3600 60 5 [] (List.Perm.swap _ _ _)).2.2⟩

/-! ### The selection only appends to the prior `clean_intervals` list -/

lemma innerLoop_append (tl : ℚ) (n : ℤ) :
    ∀ (k : ℕ) (cur : ℚ) (acc : List (ℤ × ℤ)), ∃ s, innerLoop tl n k cur acc = acc ++ s := by
  intro k
  induction k with
  | zero => exact fun cur acc => ⟨[], (List.append_nil acc).symm⟩
  | succ k ih =>
    intro cur acc
    simp only [innerLoop]
    split_ifs with h
    · exact ⟨[(pyInt cur, pyInt (cur + tl))], rfl⟩
    · obtain ⟨s, hs⟩ := ih (cur + tl) (acc ++ [(pyInt cur, pyInt (cur + tl))])
      exact ⟨[(pyInt cur, pyInt (cur + tl))] ++ s, by rw [hs, List.append_assoc]⟩

lemma outerLoop_append (tl : ℚ) (n : ℤ) :
    ∀ (L : List (ℚ × ℚ)) (acc : List (ℤ × ℤ)), ∃ s, outerLoop tl n L acc = acc ++ s := by
  intro L
  induction L with
  | nil => exact fun acc => ⟨[], (List.append_nil acc).symm⟩
  | cons p rest ih =>
    intro acc
    obtain ⟨s1, hs1⟩ := innerLoop_append tl n (capacity tl p).toNat ((pyInt p.1 : ℤ) : ℚ) acc
    simp only [outerLoop]
    split_ifs with h
    · exact ⟨s1, hs1⟩
    · obtain ⟨s2, hs2⟩ := ih (innerLoop tl n (capacity tl p).toNat ((pyInt p.1 : ℤ) : ℚ) acc)
      exact ⟨s1 ++ s2, by rw [hs2, hs1, List.append_assoc]⟩

/-- C9 (amended part): `extract_good` only ever appends to the
`clean_intervals` list it starts from; with equal inputs and equal prior
state the result is uniquely determined (the computation is a function). -/
theorem extract_good_appends_to_prior (bad : List (ℚ × ℚ)) (tmax tl : ℚ) (ts : ℤ)
    (prior : List (ℤ × ℤ)) :
    ∃ segs, (extractGood bad tmax tl ts prior).2 = prior ++ segs := by
  unfold extractGood
  split_ifs with h
  · exact ⟨[], (List.append_nil prior).symm⟩
  · exact outerLoop_append tl _ (posSpans bad tmax) prior

/-- C9 counterexample: the selection result does depend on the prior contents
of `clean_intervals` — with one stale entry present, the call appends a single
segment instead of two, because the break tests count the stale entry. -/
theorem selection_depends_on_prior_state :
    (extractGood [] 3600 60 2 [(0, 1)]).2 = [(0, 1), (420, 480)] ∧
    (extractGood [] 3600 60 2 []).2 = [(420, 480), (480, 540)] := by
  constructor <;> with_unfolding_all rfl

/-! ### Invalid inputs flow through without any error -/

lemma sum_nonpos_of_mem {l : List ℤ} (h : ∀ x ∈ l, x ≤ 0) : l.sum ≤ 0 := by
  induction l with
  | nil => simp
  | cons x rest ih =>
    rw [List.sum_cons]
    have := h x (by simp)
    have := ih fun y hy => h y (List.mem_cons_of_mem _ hy)
    omega

lemma capacity_neg_of_neg_tl {tl : ℚ} (htl : tl < 0) {bad : List (ℚ × ℚ)} {tmax : ℚ} :
    ∀ p ∈ posSpans bad tmax, capacity tl p ≤ -1 := by
  intro p hp
  have hpos : 0 < period p := by simpa using List.of_mem_filter hp
  have hdiv : period p / tl < 0 := div_neg_of_pos_of_neg hpos htl
  have : ⌊period p / tl⌋ < 0 := Int.floor_lt.mpr (by exact_mod_cast hdiv)
  unfold capacity
  omega

/-- C8 (amended): no fail-fast input validation happens; for every negative
`target_length` (with `target_segments ≥ 0`) the computation proceeds through
the normal path on any recording and any prior state, completes without an
error, and appends no segments.  (At `target_length = 0` the source can still
fail late, inside the arithmetic — not as input validation.) -/
theorem negative_target_length_appends_nothing (bad : List (ℚ × ℚ)) (tmax tl : ℚ)
    (ts : ℤ) (prior : List (ℤ × ℤ)) (htl : tl < 0) (hts : 0 ≤ ts) :
    (extractGood bad tmax tl ts prior).2 = prior := by
  unfold extractGood
  split_ifs with h
  · rfl
  · show (outerLoop tl (nSamples bad tmax tl ts) (posSpans bad tmax) prior) = prior
    rcases hL : posSpans bad tmax with _ | ⟨p, rest⟩
    · have htot : totalAvailable bad tmax tl = 0 := by
        unfold totalAvailable
        rw [hL]
        rfl
      unfold nSamples
      rw [htot, if_neg (not_lt.mpr hts)]
      rfl
    · have hcap : capacity tl p ≤ -1 :=
        capacity_neg_of_neg_tl htl p (by rw [hL]; exact List.mem_cons_self _ _)
      have htot : totalAvailable bad tmax tl ≤ -1 := by
        unfold totalAvailable
        rw [hL, List.map_cons, List.sum_cons]
        have hrest : ((rest.map (capacity tl)).sum : ℤ) ≤ 0 := by
          apply sum_nonpos_of_mem
          intro x hx
          obtain ⟨q, hq, rfl⟩ := List.mem_map.mp hx
          have : q ∈ posSpans bad tmax := by rw [hL]; exact List.mem_cons_of_mem _ hq
          exact (capacity_neg_of_neg_tl htl q this).trans (by omega)
        omega
      have hn : nSamples bad tmax tl ts = totalAvailable bad tmax tl := by
        unfold nSamples
        rw [if_neg (not_lt.mpr (by omega))]
      simp only [outerLoop]
      rw [Int.toNat_eq_zero.mpr (by omega : capacity tl p ≤ 0)]
      rw [if_pos (by rw [hn]; exact le_trans (by omega) (Int.ofNat_nonneg _ : (0 : ℤ) ≤ prior.length))]
      rfl

/-- C8 counterexample: calling the selection with the invalid
`target_length = -60` raises nothing and produces a result (resolution set,
no segments), refuting the fail-fast claim. -/
theorem invalid_target_length_no_error :
    extractGood [] 3600 (-60) 5 [] = (true, []) := by
  with_unfolding_all rfl

/-! ### Counting the selected segments -/

lemma capacity_nonneg {tl : ℚ} (htl : 0 < tl) {bad : List (ℚ × ℚ)} {tmax : ℚ} :
    ∀ p ∈ posSpans bad tmax, 0 ≤ capacity tl p := by
  intro p hp
  have hpos : 0 < period p := by simpa using List.of_mem_filter hp
  exact Int.floor_nonneg.mpr (div_nonneg hpos.le htl.le)

lemma totalAvailable_eq_zero {bad : List (ℚ × ℚ)} {tmax tl : ℚ} (htl : 0 < tl)
    (h : ((spanList bad tmax).filter fun p => decide (tl ≤ period p)) = []) :
    totalAvailable bad tmax tl = 0 := by
  unfold totalAvailable
  apply List.sum_eq_zero
  intro x hx
  obtain ⟨p, hp, rfl⟩ := List.mem_map.mp hx
  have hpos : 0 < period p := by simpa using List.of_mem_filter hp
  have hmem : p ∈ spanList bad tmax := List.mem_of_mem_filter hp
  have hlt : period p < tl := by
    by_contra hge
    have : p ∈ (spanList bad tmax).filter fun p => decide (tl ≤ period p) :=
      List.mem_filter.mpr ⟨hmem, by simpa using not_lt.mp hge⟩
    rw [h] at this
    exact absurd this (List.not_mem_nil _)
  unfold capacity
  rw [Int.floor_eq_zero_iff]
  exact Set.mem_Ico.mpr ⟨div_nonneg hpos.le htl.le, (div_lt_one htl).mpr hlt⟩

lemma one_le_totalAvailable {bad : List (ℚ × ℚ)} {tmax tl : ℚ} (htl : 0 < tl)
    (h : ((spanList bad tmax).filter fun p => decide (tl ≤ period p)) ≠ []) :
    1 ≤ totalAvailable bad tmax tl := by
  obtain ⟨p0, hp0⟩ := List.exists_mem_of_ne_nil _ h
  have hp0span : p0 ∈ spanList bad tmax := List.mem_of_mem_filter hp0
  have hp0tl : tl ≤ period p0 := by simpa using List.of_mem_filter hp0
  have hp0pos : p0 ∈ posSpans bad tmax :=
    List.mem_filter.mpr ⟨hp0span, by simpa using lt_of_lt_of_le htl hp0tl⟩
  have hcap1 : 1 ≤ capacity tl p0 := by
    unfold capacity
    exact Int.le_floor.mpr (by push_cast; exact (one_le_div htl).mpr hp0tl)
  calc (1 : ℤ) ≤ capacity tl p0 := hcap1
    _ ≤ totalAvailable bad tmax tl := by
      unfold totalAvailable
      exact List.single_le_sum
        (fun x hx => by
          obtain ⟨q, hq, rfl⟩ := List.mem_map.mp hx
          exact capacity_nonneg htl q hq)
        _ (List.mem_map.mpr ⟨p0, hp0pos, rfl⟩)

lemma sum_toNat_eq {l : List ℤ} (h : ∀ x ∈ l, 0 ≤ x) :
    (((l.map Int.toNat).sum : ℕ) : ℤ) = l.sum := by
  induction l with
  | nil => rfl
  | cons x rest ih =>
    simp only [List.map_cons, List.sum_cons, Nat.cast_add]
    rw [Int.toNat_of_nonneg (h x (by simp)),
      ih fun y hy => h y (List.mem_cons_of_mem _ hy)]

lemma innerLoop_length (tl : ℚ) (n : ℤ) :
    ∀ (k : ℕ) (cur : ℚ) (acc : List (ℤ × ℤ)), (acc.length : ℤ) < n →
      ((innerLoop tl n k cur acc).length : ℤ) = min n ((acc.length : ℤ) + (k : ℤ)) := by
  intro k
  induction k with
  | zero =>
    intro cur acc h
    simp only [innerLoop]
    push_cast
    omega
  | succ k ih =>
    intro cur acc h
    simp only [innerLoop]
    split_ifs with h2
    · simp only [List.length_append, List.length_singleton] at h2 ⊢
      push_cast at h2 ⊢
      omega
    · simp only [List.length_append, List.length_singleton] at h2
      push_cast at h2
      rw [ih (cur + tl) _ (by simp only [List.length_append, List.length_singleton]; push_cast; omega)]
      simp only [List.length_append, List.length_singleton]
      push_cast
      omega

lemma outerLoop_length (tl : ℚ) (n : ℤ) :
    ∀ (L : List (ℚ × ℚ)) (acc : List (ℤ × ℤ)), (acc.length : ℤ) < n →
      ((outerLoop tl n L acc).length : ℤ) =
        min n ((acc.length : ℤ) + (((L.map fun p => (capacity tl p).toNat).sum : ℕ) : ℤ)) := by
  intro L
  induction L with
  | nil =>
    intro acc h
    simp only [outerLoop, List.map_nil, List.sum_nil]
    push_cast
    omega
  | cons p rest ih =>
    intro acc h
    have hlen := innerLoop_length tl n (capacity tl p).toNat ((pyInt p.1 : ℤ) : ℚ) acc h
    simp only [outerLoop]
    split_ifs with h2
    · rw [hlen] at h2 ⊢
      simp only [List.map_cons, List.sum_cons, Nat.cast_add] at h2 ⊢
      omega
    · rw [hlen] at h2
      have h3 : ((innerLoop tl n (capacity tl p).toNat ((pyInt p.1 : ℤ) : ℚ) acc).length : ℤ) < n := by
        rw [hlen]; omega
      rw [ih _ h3, hlen]
      simp only [List.map_cons, List.sum_cons, Nat.cast_add]
      omega

/-- C1 (amended): on a fresh `Extractor`, for every `target_segments ≥ 1` and
positive `target_length`, the number of selected segments is exactly
`min(target_segments, total_available)`.  (The original claim also covered
`target_segments = 0`, which the code does not honor.) -/
theorem count_eq_min_of_pos_target (bad : List (ℚ × ℚ)) (tmax tl : ℚ) (ts : ℤ)
    (htl : 0 < tl) (hts : 1 ≤ ts) :
    (((extractGood bad tmax tl ts []).2).length : ℤ) = min ts (totalAvailable bad tmax tl) := by
  unfold extractGood
  split_ifs with h
  · rw [totalAvailable_eq_zero htl (List.length_eq_zero.mp h)]
    show ((([] : List (ℤ × ℤ)).length : ℤ)) = min ts 0
    simp only [List.length_nil, Nat.cast_zero]
    omega
  · have hne : ((spanList bad tmax).filter fun p => decide (tl ≤ period p)) ≠ [] :=
      fun hnil => h (by rw [hnil]; rfl)
    have htot1 := one_le_totalAvailable htl hne
    have hn1 : 1 ≤ nSamples bad tmax tl ts := by
      unfold nSamples; split_ifs <;> omega
    show ((outerLoop tl (nSamples bad tmax tl ts) (posSpans bad tmax) []).length : ℤ) = _
    rw [outerLoop_length tl _ (posSpans bad tmax) [] (by simp only [List.length_nil, Nat.cast_zero]; omega)]
    have hmm : ((posSpans bad tmax).map fun p => (capacity tl p).toNat)
        = ((posSpans bad tmax).map (capacity tl)).map Int.toNat := by
      rw [List.map_map]; rfl
    have hsum : ((((posSpans bad tmax).map fun p => (capacity tl p).toNat).sum : ℕ) : ℤ)
        = totalAvailable bad tmax tl := by
      rw [hmm]
      exact sum_toNat_eq fun x hx => by
        obtain ⟨q, hq, rfl⟩ := List.mem_map.mp hx
        exact capacity_nonneg htl q hq
    rw [hsum]
    simp only [List.length_nil, Nat.cast_zero, zero_add]
    unfold nSamples
    split_ifs <;> omega

/-- Witness for C1's amended count theorem at a concrete recording. -/
theorem count_eq_min_of_pos_target_witness :
    (0 : ℚ) < 60 ∧ (1 : ℤ) ≤ 5 ∧
    (((extractGood [] 3600 60 5 []).2).length : ℤ) = min 5 (totalAvailable [] 3600 60) :=
  ⟨by norm_num, by norm_num, count_eq_min_of_pos_target [] 3600 60 5 (by norm_num) (by norm_num)⟩

/-- C1 counterexample: with `target_segments = 0` and ample capacity
(`total_available = 53`) the call does not return the empty list: the break
test runs only after a segment has already been appended, so exactly one
segment comes back. -/
theorem target_zero_returns_one_segment :
    (extractGood [] 3600 60 0 []).2 = [(420, 480)] ∧ totalAvailable [] 3600 60 = 53 := by
  constructor <;> with_unfolding_all rfl

/-! ### The insufficient-clean-duration outcome -/

/-- C6: when no clean span reaches `target_length` (`total_available = 0`),
the outcome is a typed empty result: `resolution` is set to `False`,
`clean_intervals` is left untouched, the writer writes nothing, and no
exception is raised; concretely, `total_duration = 300` with leading
exclusion 420 produces only the span `(420, 300)` (length `-120`) and this
outcome. -/
theorem insufficient_clean_duration_empty (bad : List (ℚ × ℚ)) (tmax tl : ℚ) (ts : ℤ)
    (prior : List (ℤ × ℤ)) (htl : 0 < tl) (htot : totalAvailable bad tmax tl = 0) :
    extractGood bad tmax tl ts prior = (false, prior) ∧
    saveEdf (extractGood bad tmax tl ts prior).1 (extractGood bad tmax tl ts prior).2 = [] ∧
    (∀ p ∈ spanList [] 300, p = ((420 : ℚ), (300 : ℚ))) ∧
    totalAvailable [] 300 60 = 0 := by
  have hmain : extractGood bad tmax tl ts prior = (false, prior) := by
    unfold extractGood
    split_ifs with h
    · rfl
    · exfalso
      have hne : ((spanList bad tmax).filter fun p => decide (tl ≤ period p)) ≠ [] :=
        fun hnil => h (by rw [hnil]; rfl)
      have := one_le_totalAvailable htl hne
      omega
  refine ⟨hmain, by rw [hmain]; rfl, ?_, by with_unfolding_all rfl⟩
  with_unfolding_all decide

/-- Witness for C6 at the concrete short recording from the spec. -/
theorem insufficient_clean_duration_empty_witness :
    (0 : ℚ) < 60 ∧ totalAvailable [] 300 60 = 0 ∧
    extractGood [] 300 60 5 [] = (false, []) :=
  ⟨by norm_num, by with_unfolding_all rfl,
    (insufficient_clean_duration_empty [] 300 60 5 [] (by norm_num)
      (by with_unfolding_all rfl)).1⟩

/-! ### Structure of the emitted segments -/

lemma pyInt_intCast (z : ℤ) : pyInt (z : ℚ) = z := by
  unfold pyInt
  split_ifs with h
  · exact Int.ceil_intCast z
  · exact Int.floor_intCast z

lemma segsFrom_bounds {m : ℤ} (hm : 0 ≤ m) :
    ∀ (j : ℕ) (c : ℤ), ∀ b ∈ segsFrom c m j,
      c ≤ b.1 ∧ b.2 ≤ c + (j : ℤ) * m ∧ b.2 = b.1 + m := by
  intro j
  induction j with
  | zero => intro c b hb; exact absurd hb (List.not_mem_nil b)
  | succ j ih =>
    intro c b hb
    have hjm : 0 ≤ (j : ℤ) * m := mul_nonneg (Int.ofNat_nonneg j) hm
    have hr : ((j : ℤ) + 1) * m = (j : ℤ) * m + m := by ring
    rcases List.mem_cons.mp hb with rfl | hb
    · refine ⟨le_refl _, ?_, rfl⟩
      push_cast
      rw [hr]
      linarith
    · obtain ⟨h1, h2, h3⟩ := ih (c + m) b hb
      refine ⟨by omega, ?_, h3⟩
      push_cast
      rw [hr]
      linarith

lemma segsFrom_pairwise {m : ℤ} (hm : 0 ≤ m) :
    ∀ (j : ℕ) (c : ℤ), List.Pairwise (fun a b : ℤ × ℤ => a.2 ≤ b.1) (segsFrom c m j) := by
  intro j
  induction j with
  | zero => intro c; exact List.Pairwise.nil
  | succ j ih =>
    intro c
    refine List.pairwise_cons.mpr ⟨?_, ih (c + m)⟩
    intro b hb
    exact (segsFrom_bounds hm j (c + m) b hb).1

lemma innerLoop_spec (n m : ℤ) :
    ∀ (k : ℕ) (c : ℤ) (acc : List (ℤ × ℤ)),
      ∃ j ≤ k, innerLoop (m : ℚ) n k ((c : ℤ) : ℚ) acc = acc ++ segsFrom c m j := by
  intro k
  induction k with
  | zero => intro c acc; exact ⟨0, le_refl 0, (List.append_nil acc).symm⟩
  | succ k ih =>
    intro c acc
    have e2 : ((c : ℚ) + (m : ℚ)) = ((c + m : ℤ) : ℚ) := by push_cast; ring
    have eseg : (pyInt ((c : ℤ) : ℚ), pyInt (((c : ℤ) : ℚ) + (m : ℚ))) = ((c : ℤ), c + m) := by
      rw [e2, pyInt_intCast, pyInt_intCast]
    simp only [innerLoop]
    rw [eseg, e2]
    split_ifs with h
    · exact ⟨1, by omega, rfl⟩
    · obtain ⟨j, hj, hrec⟩ := ih (c + m) (acc ++ [(c, c + m)])
      refine ⟨j + 1, by omega, ?_⟩
      rw [hrec, List.append_assoc]
      rfl

/-! ### The chain structure of the clean spans -/

lemma spanChain (tmax : ℚ) :
    ∀ (R : List (ℚ × ℚ)) (prev : ℚ), (∀ r ∈ R, r.1 ≤ r.2) →
      List.Pairwise (fun a b : ℚ × ℚ => a.2 ≤ b.1)
        (List.zip (cumEnds prev (R.map Prod.snd)) (nextStarts tmax R))
  | [], prev, _ => by simp [cumEnds, nextStarts]
  | [r], prev, _ => by
    rw [List.map_cons, List.map_nil, cumEnds_cons]
    simp [cumEnds, nextStarts]
  | r :: r' :: R, prev, hw => by
    have hr' : r'.1 ≤ r'.2 := hw r' (by simp)
    rw [List.map_cons, cumEnds_cons,
      show nextStarts tmax (r :: r' :: R) = r'.1 :: nextStarts tmax (r' :: R) from rfl,
      List.zip_cons_cons]
    refine List.pairwise_cons.mpr
      ⟨?_, spanChain tmax (r' :: R) (max prev r.2) fun x hx => hw x (List.mem_cons_of_mem _ hx)⟩
    intro q hq
    obtain ⟨q1, q2⟩ := q
    have hq1 : q1 ∈ cumEnds (max prev r.2) ((r' :: R).map Prod.snd) := (List.of_mem_zip hq).1
    rw [List.map_cons] at hq1
    exact le_trans hr' (head_le_of_mem_cumEnds q1 hq1)

lemma spanList_chain {bad : List (ℚ × ℚ)} {tmax : ℚ} (hw : ∀ r ∈ bad, r.1 ≤ r.2) :
    List.Pairwise (fun a b : ℚ × ℚ => a.2 ≤ b.1) (spanList bad tmax) :=
  spanChain tmax (rows bad tmax) 0 (rows_wf hw tmax)

/-! ### What the selection loops emit -/

lemma outerLoop_spec (n : ℤ) {m : ℤ} (hm : 1 ≤ m) :
    ∀ (L : List (ℚ × ℚ)) (acc : List (ℤ × ℤ)),
      List.Pairwise (fun a b : ℚ × ℚ => a.2 ≤ b.1) L →
      (∀ p ∈ L, 0 < period p) →
      (∀ p ∈ L, 0 ≤ p.1) →
      List.Pairwise (fun a b : ℤ × ℤ => a.2 ≤ b.1) acc →
      (∀ a ∈ acc, ∀ p ∈ L, ((a.2 : ℤ) : ℚ) ≤ p.1) →
      List.Pairwise (fun a b : ℤ × ℤ => a.2 ≤ b.1) (outerLoop (m : ℚ) n L acc) ∧
      ∀ b ∈ outerLoop (m : ℚ) n L acc, b ∈ acc ∨ ∃ p ∈ L, SegOf m p b := by
  intro L
  induction L with
  | nil =>
    intro acc _ _ _ hpw _
    exact ⟨hpw, fun b hb => Or.inl hb⟩
  | cons p rest ih =>
    intro acc hchain hpos hce hpw hcross
    have hm0 : (0 : ℚ) < (m : ℚ) := by exact_mod_cast (by omega : (0 : ℤ) < m)
    have hp1 : 0 ≤ p.1 := hce p (by simp)
    have hppos : 0 < period p := hpos p (by simp)
    have hpyint : pyInt p.1 = ⌊p.1⌋ := by unfold pyInt; rw [if_neg (not_lt.mpr hp1)]
    have hcapnn : 0 ≤ capacity (m : ℚ) p :=
      Int.floor_nonneg.mpr (div_nonneg hppos.le hm0.le)
    obtain ⟨j, hj, hinner⟩ := innerLoop_spec n m (capacity (m : ℚ) p).toNat ⌊p.1⌋ acc
    have hjcap : (j : ℤ) ≤ capacity (m : ℚ) p := by omega
    have hcapm : ((capacity (m : ℚ) p : ℤ) : ℚ) * (m : ℚ) ≤ period p := by
      have hfl := Int.floor_le (period p / (m : ℚ))
      calc ((capacity (m : ℚ) p : ℤ) : ℚ) * (m : ℚ)
          ≤ (period p / (m : ℚ)) * (m : ℚ) := mul_le_mul_of_nonneg_right hfl hm0.le
        _ = period p := div_mul_cancel₀ _ hm0.ne'
    have hblock : ∀ b ∈ segsFrom ⌊p.1⌋ m j, SegOf m p b := by
      intro b hb
      obtain ⟨h1, h2, h3⟩ := segsFrom_bounds (by omega) j ⌊p.1⌋ b hb
      refine ⟨h1, ?_, h3⟩
      have hmul : (j : ℤ) * m ≤ capacity (m : ℚ) p * m :=
        mul_le_mul_of_nonneg_right hjcap (by omega)
      have hz : (b.2 : ℤ) ≤ ⌊p.1⌋ + capacity (m : ℚ) p * m := by linarith
      have hq : ((b.2 : ℤ) : ℚ) ≤ ((⌊p.1⌋ : ℤ) : ℚ) + ((capacity (m : ℚ) p : ℤ) : ℚ) * (m : ℚ) := by
        exact_mod_cast hz
      calc ((b.2 : ℤ) : ℚ) ≤ _ := hq
        _ ≤ p.1 + period p := add_le_add (Int.floor_le p.1) hcapm
        _ = p.2 := by unfold period; ring
    have hcross2 : ∀ a ∈ acc, ∀ b ∈ segsFrom ⌊p.1⌋ m j, a.2 ≤ b.1 := by
      intro a ha b hb
      have h1 : ((a.2 : ℤ) : ℚ) ≤ p.1 := hcross a ha p (by simp)
      have h2 : (a.2 : ℤ) ≤ ⌊p.1⌋ := Int.le_floor.mpr h1
      have h3 : ⌊p.1⌋ ≤ b.1 := (segsFrom_bounds (by omega) j ⌊p.1⌋ b hb).1
      omega
    have hpw2 : List.Pairwise (fun a b : ℤ × ℤ => a.2 ≤ b.1) (acc ++ segsFrom ⌊p.1⌋ m j) := by
      rw [List.pairwise_append]
      exact ⟨hpw, segsFrom_pairwise (by omega) j ⌊p.1⌋, hcross2⟩
    have hcast : ((pyInt p.1 : ℤ) : ℚ) = ((⌊p.1⌋ : ℤ) : ℚ) := by rw [hpyint]
    simp only [outerLoop, hcast, hinner]
    split_ifs with hbr
    · refine ⟨hpw2, fun b hb => ?_⟩
      rcases List.mem_append.mp hb with hb | hb
      · exact Or.inl hb
      · exact Or.inr ⟨p, by simp, hblock b hb⟩
    · have hchain' := List.Pairwise.of_cons hchain
      have hpos' : ∀ q ∈ rest, 0 < period q := fun q hq => hpos q (List.mem_cons_of_mem _ hq)
      have hce' : ∀ q ∈ rest, 0 ≤ q.1 := fun q hq => hce q (List.mem_cons_of_mem _ hq)
      have hcross' : ∀ a ∈ acc ++ segsFrom ⌊p.1⌋ m j, ∀ q ∈ rest, ((a.2 : ℤ) : ℚ) ≤ q.1 := by
        intro a ha q hq
        rcases List.mem_append.mp ha with ha | ha
        · exact hcross a ha q (List.mem_cons_of_mem _ hq)
        · exact le_trans (hblock a ha).2.1 (List.rel_of_pairwise_cons hchain hq)
      obtain ⟨hpwr, hmemr⟩ := ih (acc ++ segsFrom ⌊p.1⌋ m j) hchain' hpos' hce' hpw2 hcross'
      refine ⟨hpwr, fun b hb => ?_⟩
      rcases hmemr b hb with hb2 | ⟨q, hq, hseg⟩
      · rcases List.mem_append.mp hb2 with hb3 | hb3
        · exact Or.inl hb3
        · exact Or.inr ⟨p, by simp, hblock b hb3⟩
      · exact Or.inr ⟨q, List.mem_cons_of_mem _ hq, hseg⟩

/-- C4: on a fresh `Extractor`, with well-formed bad intervals (`start ≤ end`,
the data-model contract) and an integer `target_length ≥ 1` (the declared
input type), the selected segments come back in non-decreasing start order
and no two overlap: each segment starts at or after the end of every earlier
one. -/
theorem segments_ordered_nonoverlapping (bad : List (ℚ × ℚ)) (tmax : ℚ) (m ts : ℤ)
    (hm : 1 ≤ m) (hw : ∀ r ∈ bad, r.1 ≤ r.2) :
    List.Pairwise (fun a b : ℤ × ℤ => a.1 ≤ b.1 ∧ a.2 ≤ b.1)
      ((extractGood bad tmax (m : ℚ) ts []).2) := by
  unfold extractGood
  split_ifs with h
  · exact List.Pairwise.nil
  · show List.Pairwise _ (outerLoop (m : ℚ) (nSamples bad tmax (m : ℚ) ts) (posSpans bad tmax) [])
    have hchain : List.Pairwise (fun a b : ℚ × ℚ => a.2 ≤ b.1) (posSpans bad tmax) :=
      List.Pairwise.sublist (List.filter_sublist _) (spanList_chain hw)
    have hpos : ∀ p ∈ posSpans bad tmax, 0 < period p := fun p hp => by
      simpa using List.of_mem_filter hp
    have hce : ∀ p ∈ posSpans bad tmax, 0 ≤ p.1 := fun p hp =>
      spanList_ce_nonneg bad tmax p (List.mem_of_mem_filter hp)
    obtain ⟨hpw, hmem⟩ := outerLoop_spec (nSamples bad tmax (m : ℚ) ts) hm (posSpans bad tmax) []
      hchain hpos hce List.Pairwise.nil (fun a ha => absurd ha (List.not_mem_nil a))
    refine List.Pairwise.imp_of_mem ?_ hpw
    intro a b ha hb hab
    rcases hmem a ha with h' | ⟨p, hp, hseg⟩
    · exact absurd h' (List.not_mem_nil a)
    · have h3 := hseg.2.2
      exact ⟨by omega, hab⟩

/-- Witness for C4 at the spec's overlapping-pair scenario. -/
theorem segments_ordered_nonoverlapping_witness :
    (1 : ℤ) ≤ 60 ∧
    List.Pairwise (fun a b : ℤ × ℤ => a.1 ≤ b.1 ∧ a.2 ≤ b.1)
      ((extractGood [((1000 : ℚ), (1100 : ℚ)), ((1050 : ℚ), (1200 : ℚ))] 3600
        ((60 : ℤ) : ℚ) 5 []).2) :=
  ⟨by norm_num,
    segments_ordered_nonoverlapping [((1000 : ℚ), (1100 : ℚ)), ((1050 : ℚ), (1200 : ℚ))]
      3600 60 5 (by norm_num) (by with_unfolding_all decide)⟩

/-! ### Containment of segments in spans -/

lemma rows_end_int {bad : List (ℚ × ℚ)} (hint : ∀ r ∈ bad, ∃ z : ℤ, r.2 = (z : ℚ))
    {tmax : ℚ} (htm : ∃ z : ℤ, tmax = (z : ℚ)) :
    ∀ e ∈ (rows bad tmax).map Prod.snd, ∃ z : ℤ, e = (z : ℚ) := by
  intro e he
  obtain ⟨r, hr, rfl⟩ := List.mem_map.mp he
  rcases List.mem_cons.mp hr with rfl | hr
  · exact ⟨420, by norm_num⟩
  · rcases List.mem_append.mp hr with hr | hr
    · exact hint r ((List.perm_insertionSort lexLe bad).mem_iff.mp hr)
    · rw [List.mem_singleton.mp hr]
      exact htm

lemma spanList_ce_int {bad : List (ℚ × ℚ)} {tmax : ℚ}
    (hint : ∀ r ∈ bad, ∃ z : ℤ, r.2 = (z : ℚ)) (htm : ∃ z : ℤ, tmax = (z : ℚ)) :
    ∀ p ∈ spanList bad tmax, ∃ z : ℤ, p.1 = (z : ℚ) := by
  intro p hp
  exact cumEnds_int ⟨0, by norm_num⟩ (rows_end_int hint htm) p.1 (List.of_mem_zip hp).1

/-- C2 (amended): on a fresh `Extractor`, with well-formed bad intervals whose
end-times (and the total duration) are integers and an integer
`target_length ≥ 1`, every selected segment lies entirely within exactly one
produced clean span (`cumulative_end ≤ start` and `end ≤ next_start`), and no
two selected segments overlap.  (For fractional interval ends the containment
fails because of `int()` truncation of `cumulative_end`.) -/
theorem segments_in_unique_span_of_int_times (bad : List (ℚ × ℚ)) (tmax : ℚ) (m ts : ℤ)
    (hm : 1 ≤ m) (hw : ∀ r ∈ bad, r.1 ≤ r.2)
    (hint : ∀ r ∈ bad, ∃ z : ℤ, r.2 = (z : ℚ)) (htm : ∃ z : ℤ, tmax = (z : ℚ)) :
    (∀ b ∈ (extractGood bad tmax (m : ℚ) ts []).2,
      ∃! i : Fin (spanList bad tmax).length,
        ((spanList bad tmax).get i).1 ≤ ((b.1 : ℤ) : ℚ) ∧
        ((b.2 : ℤ) : ℚ) ≤ ((spanList bad tmax).get i).2) ∧
    List.Pairwise (fun a b : ℤ × ℤ => a.2 ≤ b.1)
      ((extractGood bad tmax (m : ℚ) ts []).2) := by
  unfold extractGood
  split_ifs with h
  · exact ⟨fun b hb => absurd hb (List.not_mem_nil b), List.Pairwise.nil⟩
  · have hchain : List.Pairwise (fun a b : ℚ × ℚ => a.2 ≤ b.1) (posSpans bad tmax) :=
      List.Pairwise.sublist (List.filter_sublist _) (spanList_chain hw)
    have hpos : ∀ p ∈ posSpans bad tmax, 0 < period p := fun p hp => by
      simpa using List.of_mem_filter hp
    have hce : ∀ p ∈ posSpans bad tmax, 0 ≤ p.1 := fun p hp =>
      spanList_ce_nonneg bad tmax p (List.mem_of_mem_filter hp)
    obtain ⟨hpw, hmem⟩ := outerLoop_spec (nSamples bad tmax (m : ℚ) ts) hm (posSpans bad tmax) []
      hchain hpos hce List.Pairwise.nil (fun a ha => absurd ha (List.not_mem_nil a))
    have hchainIdx := List.pairwise_iff_get.mp (@spanList_chain bad tmax hw)
    refine ⟨?_, hpw⟩
    intro b hb
    rcases hmem b hb with h' | ⟨p, hp, hseg⟩
    · exact absurd h' (List.not_mem_nil b)
    obtain ⟨hb1, hb2, hb3⟩ := hseg
    have hpmem : p ∈ spanList bad tmax := List.mem_of_mem_filter hp
    obtain ⟨z, hz⟩ := spanList_ce_int hint htm p hpmem
    have hfl : ((⌊p.1⌋ : ℤ) : ℚ) = p.1 := by rw [hz, Int.floor_intCast]
    obtain ⟨i, hi⟩ := List.mem_iff_get.mp hpmem
    have hb1' : p.1 ≤ ((b.1 : ℤ) : ℚ) := by
      rw [← hfl]
      exact_mod_cast hb1
    have hblt : ((b.1 : ℤ) : ℚ) < ((b.2 : ℤ) : ℚ) := by
      exact_mod_cast (by omega : b.1 < b.2)
    refine ⟨i, ⟨by rw [hi]; exact hb1', by rw [hi]; exact hb2⟩, ?_⟩
    intro i' hi'
    obtain ⟨h1', h2'⟩ := hi'
    by_contra hne
    rcases lt_or_gt_of_ne hne with hcase | hcase
    · have hcc := hchainIdx i' i hcase
      rw [hi] at hcc
      linarith
    · have hcc := hchainIdx i i' hcase
      rw [hi] at hcc
      linarith

/-- C2 counterexample: with the valid fractional bad interval
`(500, 600.5)` the selection emits the segment `(600, 660)` (the scan's
`cumulative_end` 600.5 is truncated by `int()` to 600), and that segment is
contained in no produced clean span at all — refuting "every returned segment
lies entirely within exactly one clean span" as stated. -/
theorem segment_escapes_span_on_fractional_end :
    (extractGood [((500 : ℚ), (1201 : ℚ)/2)] 3600 60 2 []).2 = [(420, 480), (600, 660)] ∧
    ∀ p ∈ spanList [((500 : ℚ), (1201 : ℚ)/2)] 3600,
      ¬(p.1 ≤ ((600 : ℤ) : ℚ) ∧ ((660 : ℤ) : ℚ) ≤ p.2) := by
  constructor
  · with_unfolding_all rfl
  · with_unfolding_all decide

/-- Witness for C2's amended containment theorem. -/
theorem segments_in_unique_span_witness :
    ((420, 480) ∈ (extractGood [((1000 : ℚ), (1100 : ℚ))] 3600 ((60 : ℤ) : ℚ) 5 []).2) ∧
    ∃! i : Fin (spanList [((1000 : ℚ), (1100 : ℚ))] 3600).length,
      ((spanList [((1000 : ℚ), (1100 : ℚ))] 3600).get i).1 ≤ ((420 : ℤ) : ℚ) ∧
      ((480 : ℤ) : ℚ) ≤ ((spanList [((1000 : ℚ), (1100 : ℚ))] 3600).get i).2 :=
  ⟨by with_unfolding_all decide,
    (segments_in_unique_span_of_int_times [((1000 : ℚ), (1100 : ℚ))] 3600 60 5
      (by norm_num) (by with_unfolding_all decide)
      (by intro r hr; rw [List.mem_singleton.mp hr]; exact ⟨1100, by norm_num⟩)
      ⟨3600, by norm_num⟩).1 (420, 480) (by with_unfolding_all decide)⟩

/-! ### Coverage of the normalization -/

lemma cover {t tmax : ℚ} (htmax : t < tmax) :
    ∀ (R : List (ℚ × ℚ)) (r : ℚ × ℚ) (prev : ℚ), prev ≤ t →
      (∀ x ∈ r :: R, ¬(x.1 ≤ t ∧ t < x.2)) →
      t < r.1 ∨
        ∃ q ∈ List.zip (cumEnds prev ((r :: R).map Prod.snd)) (nextStarts tmax (r :: R)),
          q.1 ≤ t ∧ t < q.2 := by
  intro R
  induction R with
  | nil =>
    intro r prev hprev hnb
    by_cases hr : t < r.1
    · exact Or.inl hr
    · right
      have hre : r.2 ≤ t := by
        have h := hnb r (by simp)
        push_neg at h
        exact h (not_lt.mp hr)
      refine ⟨(max prev r.2, tmax), ?_, max_le hprev hre, htmax⟩
      rw [List.map_cons, List.map_nil, cumEnds_cons]
      simp [cumEnds, nextStarts]
  | cons r' R ih =>
    intro r prev hprev hnb
    by_cases hr : t < r.1
    · exact Or.inl hr
    · right
      have hre : r.2 ≤ t := by
        have h := hnb r (by simp)
        push_neg at h
        exact h (not_lt.mp hr)
      have hmax : max prev r.2 ≤ t := max_le hprev hre
      rw [List.map_cons, cumEnds_cons,
        show nextStarts tmax (r :: r' :: R) = r'.1 :: nextStarts tmax (r' :: R) from rfl,
        List.zip_cons_cons]
      rcases ih r' (max prev r.2) hmax (fun x hx => hnb x (List.mem_cons_of_mem _ hx))
        with hlt | ⟨q, hq, hq1, hq2⟩
      · exact ⟨(max prev r.2, r'.1), List.mem_cons_self _ _, hmax, hlt⟩
      · exact ⟨q, List.mem_cons_of_mem _ hq, hq1, hq2⟩

/-- C5: for well-formed bad intervals, every time point `t` with
`420 ≤ t < total_duration` that lies inside no bad interval (half-open
reading `start ≤ t < end`) falls inside exactly one produced clean span, and
that span has positive length. -/
theorem coverage_unique_span (bad : List (ℚ × ℚ)) (tmax t : ℚ)
    (hw : ∀ r ∈ bad, r.1 ≤ r.2) (h420 : 420 ≤ t) (htm : t < tmax)
    (hnb : ∀ r ∈ bad, ¬(r.1 ≤ t ∧ t < r.2)) :
    ∃! i : Fin (spanList bad tmax).length,
      0 < period ((spanList bad tmax).get i) ∧
      ((spanList bad tmax).get i).1 ≤ t ∧ t < ((spanList bad tmax).get i).2 := by
  have hnbrows : ∀ x ∈ rows bad tmax, ¬(x.1 ≤ t ∧ t < x.2) := by
    intro x hx
    rcases List.mem_cons.mp hx with rfl | hx
    · rintro ⟨h1, h2⟩
      exact absurd h420 (not_le.mpr h2)
    · rcases List.mem_append.mp hx with hx | hx
      · exact hnb x ((List.perm_insertionSort lexLe bad).mem_iff.mp hx)
      · rw [List.mem_singleton.mp hx]
        rintro ⟨h1, h2⟩
        exact absurd htm (not_lt.mpr h1)
  have h0 : (0 : ℚ) ≤ t := le_trans (by norm_num) h420
  rcases cover htm (sortBad bad ++ [(tmax, tmax)]) (0, 420) 0 h0 hnbrows
    with hlt | ⟨q, hq, hq1, hq2⟩
  · exact absurd hlt (not_lt.mpr h0)
  · have hq' : q ∈ spanList bad tmax := hq
    obtain ⟨i, hi⟩ := List.mem_iff_get.mp hq'
    have hchainIdx := List.pairwise_iff_get.mp (@spanList_chain bad tmax hw)
    refine ⟨i, ⟨by rw [hi]; unfold period; linarith, by rw [hi]; exact hq1,
      by rw [hi]; exact hq2⟩, ?_⟩
    intro i' hi'
    obtain ⟨hpos', h1', h2'⟩ := hi'
    by_contra hne
    rcases lt_or_gt_of_ne hne with hcase | hcase
    · have hcc := hchainIdx i' i hcase
      rw [hi] at hcc
      linarith
    · have hcc := hchainIdx i i' hcase
      rw [hi] at hcc
      linarith

/-- Witness for C5 at a concrete recording with one bad interval. -/
theorem coverage_unique_span_witness :
    ((420 : ℚ) ≤ 450) ∧
    ∃! i : Fin (spanList [((500 : ℚ), (600 : ℚ))] 3600).length,
      0 < period ((spanList [((500 : ℚ), (600 : ℚ))] 3600).get i) ∧
      ((spanList [((500 : ℚ), (600 : ℚ))] 3600).get i).1 ≤ 450 ∧
      (450 : ℚ) < ((spanList [((500 : ℚ), (600 : ℚ))] 3600).get i).2 :=
  ⟨by norm_num,
    coverage_unique_span [((500 : ℚ), (600 : ℚ))] 3600 450
      (by with_unfolding_all decide) (by norm_num) (by norm_num)
      (by with_unfolding_all decide)⟩

/-- Witness for C8's amended theorem at a concrete invalid call. -/
theorem negative_target_length_appends_nothing_witness :
    ((-60 : ℚ) < 0) ∧ ((0 : ℤ) ≤ 5) ∧
    (extractGood [((500 : ℚ), (600 : ℚ))] 3600 (-60) 5 [(1, 2)]).2 = [(1, 2)] :=
  ⟨by norm_num, by norm_num,
    negative_target_length_appends_nothing [((500 : ℚ), (600 : ℚ))] 3600 (-60) 5 [(1, 2)]
      (by norm_num) (by norm_num)⟩

end EDF
